import Mathlib

/-!
Shallow embedding of the multi-backend translation ensemble of the
`arabic_pdf_translator` package, together with theorems checking the
natural-language specification against the code.

Texts are modelled as `List Char`; Python floats are modelled as exact
rationals (`ℚ`); Python dicts keyed by strings are modelled as association
lists with Python's insertion-order/overwrite semantics.  Network calls are
abstracted: a backend is a pure function from the request text to the
`TranslationResult` it would produce (exceptions raised by a backend are
already folded into the `error` field, exactly as `translate_with_timing`
does in `translator/base.py`).
-/

namespace ArabicPdfTranslator

/-- Texts are lists of characters. -/
abbrev Str := List Char

/-! ## Whitespace, strip and split (Python `str` semantics, `utils.py`) -/

/-- Python whitespace characters (`\s` for the ASCII range used here). -/
def isWs (c : Char) : Bool :=
  c = ' ' || c = '\t' || c = '\n' || c = '\r' || c = '\x0b' || c = '\x0c'

/-- Python `str.strip()`: drop leading and trailing whitespace. -/
def stripL (s : Str) : Str :=
  ((s.dropWhile isWs).reverse.dropWhile isWs).reverse

/-- Python `str.split()` with no argument: maximal runs of non-whitespace
characters, i.e. the whitespace-delimited tokens of a text. -/
def tokens : Str → List Str
  | [] => []
  | c :: rest =>
    if isWs c then tokens rest
    else (c :: rest.takeWhile (fun d => ¬ isWs d)) ::
      tokens (rest.dropWhile (fun d => ¬ isWs d))
termination_by s => s.length
decreasing_by
  all_goals simp only [List.length_cons, Nat.lt_succ_iff]
  · exact Nat.le_refl _
  · exact List.Sublist.length_le (List.dropWhile_sublist _)

/-- Split a text on maximal runs of separator characters, keeping empty
pieces, mirroring Python `re.split('[X]+', s)`. -/
def splitRuns (p : Char → Bool) : Str → List Str
  | [] => [[]]
  | c :: rest =>
    if p c then [] :: splitRuns p (rest.dropWhile p)
    else
      match splitRuns p rest with
      | [] => [[c]]
      | h :: t => (c :: h) :: t
termination_by s => s.length
decreasing_by
  all_goals simp only [List.length_cons, Nat.lt_succ_iff]
  · exact List.Sublist.length_le (List.dropWhile_sublist _)
  · exact Nat.le_refl _

/-! ## `utils.calculate_text_similarity` -/

/-- Python `str.lower()` (ASCII case fold, as used on the English outputs). -/
def lowerStr (s : Str) : Str := s.map Char.toLower

/-- The set of lower-cased whitespace-delimited words of a text
(`set(text.lower().split())`). -/
def wordSet (t : Str) : Finset Str := (tokens (lowerStr t)).toFinset

/-- `utils.calculate_text_similarity`: word-level Jaccard coefficient. -/
def calculate_text_similarity (t1 t2 : Str) : ℚ :=
  if wordSet t1 = ∅ ∧ wordSet t2 = ∅ then 1
  else if wordSet t1 = ∅ ∨ wordSet t2 = ∅ then 0
  else ((wordSet t1 ∩ wordSet t2).card : ℚ) / ((wordSet t1 ∪ wordSet t2).card : ℚ)

/-! ## `utils._is_retryable_error` and `utils.retry_with_backoff` -/

/-- The shape of a Python exception as far as the classifier inspects it:
which provider-SDK error class it is an instance of (the five anthropic /
openai client-error classes checked in `_is_retryable_error`, or a generic
exception), an optional `status_code` attribute on the exception itself, and
an optional `status_code` on a nested `response` attribute. -/
inductive ErrKind
  | badRequest
  | authentication
  | permissionDenied
  | notFound
  | unprocessableEntity
  | generic
deriving DecidableEq, Repr

structure PyErr where
  kind : ErrKind
  status_code : Option Nat := none
  response_status : Option Nat := none
deriving DecidableEq, Repr

/-- `getattr(exc, 'status_code', None) or getattr(getattr(exc, 'response',
None), 'status_code', None)` — note Python's falsy `or`: a `status_code` of
`0` falls through to the response's status. -/
def effectiveStatus (e : PyErr) : Option Nat :=
  match e.status_code with
  | some n => if n = 0 then e.response_status else some n
  | none => e.response_status

/-- `utils._is_retryable_error`. -/
def is_retryable_error (e : PyErr) : Bool :=
  match e.kind with
  | .badRequest => false
  | .authentication => false
  | .permissionDenied => false
  | .notFound => false
  | .unprocessableEntity => false
  | .generic =>
    match effectiveStatus e with
    | some n => ¬ (400 ≤ n ∧ n < 500)
    | none => true

/-- One run of the loop body of `retry_with_backoff`'s wrapper.  `op k` is
the outcome of the `(k+1)`-st invocation of the wrapped function.  Returns
the propagated outcome, the number of invocations made, and the list of
back-off delays slept.  `remaining` is the number of loop iterations left
(`max_retries + 1 - attempt`); the `0` case is unreachable from
`retry_with_backoff` below. -/
def retryAux (op : ℕ → Except PyErr α) (maxRetries : ℕ) (baseDelay maxDelay : ℚ) :
    ℕ → ℕ → Except PyErr α × ℕ × List ℚ
  | _, 0 => (.error ⟨.generic, none, none⟩, 0, [])
  | attempt, remaining + 1 =>
    match op attempt with
    | .ok a => (.ok a, 1, [])
    | .error e =>
      if is_retryable_error e then
        if attempt < maxRetries then
          let d := min (baseDelay * 2 ^ attempt) maxDelay
          let rec_ := retryAux op maxRetries baseDelay maxDelay (attempt + 1) remaining
          (rec_.1, rec_.2.1 + 1, d :: rec_.2.2)
        else (.error e, 1, [])
      else (.error e, 1, [])

/-- `utils.retry_with_backoff(max_retries, base_delay, max_delay)` applied
to an operation whose successive invocation outcomes are `op 0, op 1, …`. -/
def retry_with_backoff (op : ℕ → Except PyErr α) (maxRetries : ℕ)
    (baseDelay maxDelay : ℚ) : Except PyErr α × ℕ × List ℚ :=
  retryAux op maxRetries baseDelay maxDelay 0 (maxRetries + 1)

/-! ## Data model (`translator/base.py`) -/

/-- `translator.base.TranslationResult` (latency and metadata, irrelevant to
every claim, are omitted). -/
structure TranslationResult where
  method : String
  source_text : Str
  translated_text : Str
  confidence : ℚ
  error : Option String := none
deriving DecidableEq, Repr

/-- `TranslationResult.is_successful`. -/
def TranslationResult.is_successful (r : TranslationResult) : Bool :=
  r.error = none && ¬ stripL r.translated_text = []

/-! ## String-keyed dicts with Python insertion-order semantics -/

/-- `d[k] = v` on a Python dict: overwrite in place if the key is present,
else append. -/
def dinsert (m : List (String × α)) (k : String) (v : α) : List (String × α) :=
  if m.any (fun p => p.1 = k) then
    m.map (fun p => if p.1 = k then (k, v) else p)
  else m ++ [(k, v)]

/-- `d.get(k)` on a Python dict. -/
def dlookup (m : List (String × α)) (k : String) : Option α :=
  (m.find? (fun p => p.1 = k)).map Prod.snd

/-- `d.get(k, dflt)` on a Python dict. -/
def dlookupD (m : List (String × α)) (k : String) (dflt : α) : α :=
  (dlookup m k).getD dflt

/-! ## `quality/evaluator.py` — heuristic dimensions

The model corresponds to a `QualityEvaluator` constructed without an
Anthropic API key (`_claude_client is None`, as in the repository's own
tests), so the Claude-as-judge phase — a network call — never runs and
`evaluate_translations` is a pure function of its inputs. -/

/-- Characters matched by the evaluator's pattern `[؀-ۿ]`. -/
def isArabicChar (c : Char) : Bool := 0x600 ≤ c.toNat && c.toNat ≤ 0x6FF

/-- The fraction of Arabic-script characters in a text, as computed inside
`_heuristic_evaluation` (`arabic_in_output / len(text) if len(text) > 0 else 0`). -/
def arabic_char_ratio (t : Str) : ℚ :=
  if 0 < t.length then ((t.filter isArabicChar).length : ℚ) / (t.length : ℚ) else 0

/-- Sentence-ending characters for the source text: `[.!?،؟\n]`. -/
def srcBoundary (c : Char) : Bool :=
  c = '.' || c = '!' || c = '?' || c = '،' || c = '؟' || c = '\n'

/-- Sentence-ending characters for the translated text: `[.!?\n]`. -/
def transBoundary (c : Char) : Bool :=
  c = '.' || c = '!' || c = '?' || c = '\n'

/-- Sentence-ending characters used by `_assess_fluency`: `[.!?]`. -/
def fluencyBoundary (c : Char) : Bool :=
  c = '.' || c = '!' || c = '?'

/-- `QualityEvaluator._assess_fluency`. -/
def assess_fluency (text : Str) : ℚ :=
  let valid := ((splitRuns fluencyBoundary text).map stripL).filter (fun s => ¬ s = [])
  if valid = [] then 3/10
  else
    let lengths : List ℚ := valid.map (fun s => ((tokens s).length : ℚ))
    let n : ℚ := (valid.length : ℚ)
    let score : ℚ := 3/4
    let score :=
      if 1 < valid.length then
        let avg := lengths.sum / n
        let score := if 8 ≤ avg ∧ avg ≤ 25 then score + 1/10 else score
        let variance := (lengths.map (fun l => (l - avg) ^ 2)).sum / n
        if 10 < variance then score + 1/20 else score
      else score
    let properlyCapitalized : ℚ :=
      ((valid.filter (fun s => s.headD ' ' |>.isUpper)).length : ℚ)
    let score := score + properlyCapitalized / n * (1/10)
    min 1 score

/-- `QualityEvaluator._assess_consistency`.  A trigram `' '.join(words[i:i+3])`
is represented by the word triple itself; since words contain no whitespace,
joining with a space is injective on triples. -/
def assess_consistency (text : Str) : ℚ :=
  let words := tokens text
  if words.length < 10 then 4/5
  else
    let trigrams :=
      (List.range (words.length - 2)).map
        (fun i => (words.getD i [], words.getD (i + 1) [], words.getD (i + 2) []))
    let uniqueRatio : ℚ :=
      if trigrams = [] then 1
      else (trigrams.dedup.length : ℚ) / (trigrams.length : ℚ)
    min 1 (uniqueRatio + 1/10)

/-- The four heuristic dimensions `_heuristic_evaluation` computes for one
translation (`source_paragraphs` is computed by the Python code but never
used, and is omitted). -/
def heuristicDimsFor (source : Str) (r : TranslationResult) : List (String × ℚ) :=
  let text := r.translated_text
  if stripL text = [] then
    [("accuracy", 0), ("fluency", 0), ("completeness", 0), ("consistency", 0)]
  else
    let sourceLen : ℚ := (source.length : ℚ)
    let sourceSentences : ℚ := ((splitRuns srcBoundary source).length : ℚ)
    let lengthRatio : ℚ := if 0 < source.length then (text.length : ℚ) / sourceLen else 0
    let completeness : ℚ :=
      if 1/2 ≤ lengthRatio ∧ lengthRatio ≤ 2 then
        min 1 (1 - |1 - lengthRatio| * (3/10))
      else max (1/5) (1 - |1 - lengthRatio| * (5/10))
    let transSentences : ℚ := ((splitRuns transBoundary text).length : ℚ)
    let sentenceRatio : ℚ :=
      if 0 < sourceSentences then transSentences / sourceSentences else 1
    let sentenceScore : ℚ := min 1 (1 - |1 - sentenceRatio| * (4/10))
    let completeness := (completeness + sentenceScore) / 2
    let accuracy : ℚ := max (3/10) (1 - arabic_char_ratio text * 5)
    let accuracy := accuracy * (7/10) + r.confidence * (3/10)
    [("accuracy", accuracy), ("fluency", assess_fluency text),
     ("completeness", completeness), ("consistency", assess_consistency text)]

/-- `QualityEvaluator._heuristic_evaluation`: dict from method name to its
dimension dict. -/
def heuristicScores (source : Str) (ts : List TranslationResult) :
    List (String × List (String × ℚ)) :=
  ts.foldl (fun m r => dinsert m r.method (heuristicDimsFor source r)) []

/-- `sum(similarities)/len(similarities)` with the `0.5` no-peer default of
`_cross_agreement_scoring`. -/
def meanOrHalf (s : List ℚ) : ℚ :=
  if s = [] then 1/2 else s.sum / (s.length : ℚ)

/-- The similarity list `_cross_agreement_scoring` builds for candidate
`ri` sitting at index `i`: one Jaccard similarity per successful candidate
at a different index. -/
def simsFor (ts : List TranslationResult) (i : ℕ) (ri : TranslationResult) :
    List ℚ :=
  (ts.enum.filter (fun p => p.1 ≠ i ∧ p.2.is_successful)).map
    (fun p => calculate_text_similarity ri.translated_text p.2.translated_text)

/-- The cross-agreement value `_cross_agreement_scoring` computes for the
candidate at index `i` of the list (stored in the dict under its method). -/
def crossAgreementAt (ts : List TranslationResult) (i : ℕ) : ℚ :=
  match ts.get? i with
  | none => 0
  | some ri =>
    if ¬ ri.is_successful then 0
    else meanOrHalf (simsFor ts i ri)

/-- `QualityEvaluator._cross_agreement_scoring` as a dict. -/
def crossAgreementScores (ts : List TranslationResult) : List (String × ℚ) :=
  ts.enum.foldl (fun m p => dinsert m p.2.method (crossAgreementAt ts p.1)) []

/-- `QualityEvaluator.DIMENSION_WEIGHTS` (a dict, iterated in insertion
order). -/
def DIMENSION_WEIGHTS : List (String × ℚ) :=
  [("accuracy", 3/10), ("fluency", 1/4), ("completeness", 1/4),
   ("consistency", 1/10), ("cross_agreement", 1/10)]

/-- The weighted combination loop of `evaluate_translations` (phase 3):
sum weighted scores over the dimensions present in `dims`, then divide by
the total weight used. -/
def combineDims (dims : List (String × ℚ)) : ℚ :=
  let tw :=
    DIMENSION_WEIGHTS.foldl
      (fun (acc : ℚ × ℚ) (p : String × ℚ) =>
        match dlookup dims p.1 with
        | some v => (acc.1 + v * p.2, acc.2 + p.2)
        | none => acc)
      (0, 0)
  if 0 < tw.2 then tw.1 / tw.2 else 0

/-- `max(combined_scores, key=combined_scores.get)` on a dict in iteration
order: Python's `max` keeps the first element attaining the maximum. -/
def dictArgmaxGo : List (String × ℚ) → String → ℚ → String
  | [], bk, _ => bk
  | (k, v) :: rest, bk, bv =>
    if bv < v then dictArgmaxGo rest k v else dictArgmaxGo rest bk bv

/-- `max(m, key=m.get)`; `""` for the empty dict (unreachable from
`evaluate_translations`, which guards the empty list). -/
def dictArgmax : List (String × ℚ) → String
  | [] => ""
  | (k, v) :: rest => dictArgmaxGo rest k v

/-- `quality.evaluator.QualityScore` (judge fields retain their defaults in
the judge-less model). -/
structure QualityScore where
  scores : List (String × ℚ)
  dimension_scores : List (String × List (String × ℚ))
  best_method : String
  reasoning : String := ""
  judge_used : Bool := false
deriving DecidableEq, Repr

/-- Phase 3 of `evaluate_translations`, for one translation: attach the
cross-agreement dimension to the heuristic dimensions and fold the weighted
total and the dimension dict into the accumulating dicts. -/
def combineStep (hs : List (String × List (String × ℚ)))
    (ag : List (String × ℚ))
    (acc : List (String × ℚ) × List (String × List (String × ℚ)))
    (r : TranslationResult) :
    List (String × ℚ) × List (String × List (String × ℚ)) :=
  let dims := dlookupD hs r.method [] ++
    [("cross_agreement", dlookupD ag r.method (1/2))]
  (dinsert acc.1 r.method (combineDims dims), dinsert acc.2 r.method dims)

/-- `QualityEvaluator.evaluate_translations` (judge disabled). -/
def evaluate_translations (source : Str) (ts : List TranslationResult) :
    QualityScore :=
  match ts with
  | [] => ⟨[], [], "", "", false⟩
  | [t] =>
    ⟨[(t.method, t.confidence)],
     [(t.method, [("self_confidence", t.confidence)])],
     t.method, "", false⟩
  | _ =>
    let hs := heuristicScores source ts
    let ag := crossAgreementScores ts
    let cd := ts.foldl (combineStep hs ag) ([], [])
    ⟨cd.1, cd.2, dictArgmax cd.1, "", false⟩

/-! ## `translator/ensemble.py` — `TranslationEnsemble.translate`

A backend is modelled as a pure function from the request text to the
`TranslationResult` it produces (its `translate_with_timing` outcome; the
language codes and context, forwarded unchanged to every backend, are fixed
for one call and folded into the function).  The registry
`self.translators` is the association list `T` in registration order.
Thread-pool completion order is abstracted as registration order.  Besides
the code's return tuple, the model returns the list of backend names
invoked, in invocation order, so that "no network call happens" claims can
be stated. -/

abbrev Backend := Str → TranslationResult

/-- The hard-coded `preferred_order` list in `TranslationEnsemble.translate`. -/
def preferredOrder : List String := ["claude", "deepl", "openai", "google"]

/-- Placeholder result for the unreachable `results[0]` on an empty results
list (the registry is non-empty whenever `_run_ensemble` runs). -/
def defaultResult : TranslationResult :=
  ⟨"", [], [], 0, some "unreachable"⟩

/-- `TranslationEnsemble._run_ensemble`: run every registered backend,
filter the successful results, and select.  Returns
`(best, all results, quality score?, backend names invoked)`. -/
def run_ensemble (T : List (String × Backend)) (text : Str) :
    TranslationResult × List TranslationResult × Option QualityScore × List String :=
  let results := T.map (fun p => p.2 text)
  let log := T.map Prod.fst
  let successful := results.filter (fun r => r.is_successful)
  match successful with
  | [] => (results.headD defaultResult, results, none, log)
  | [r] => (r, results, none, log)
  | _ =>
    let quality := evaluate_translations text successful
    let best :=
      (successful.find? (fun r => r.method = quality.best_method)).getD
        (successful.headD defaultResult)
    (best, results, some quality, log)

/-- The sequential fallback loop of `TranslationEnsemble.translate` (the
`for name in preferred_order` loop): walk the preference list, invoke each
registered backend in turn, and stop at the first successful result.
Returns the successful result, if any, and the names invoked. -/
def seqTryLoop (T : List (String × Backend)) (text : Str) :
    List String → Option TranslationResult × List String
  | [] => (none, [])
  | n :: rest =>
    match dlookup T n with
    | none => seqTryLoop T text rest
    | some f =>
      let r := f text
      if r.is_successful then (some r, [n])
      else
        let rec_ := seqTryLoop T text rest
        (rec_.1, n :: rec_.2)

/-- `TranslationEnsemble.translate`. -/
def ensemble_translate (T : List (String × Backend)) (enableEnsemble forceMulti : Bool)
    (text : Str) :
    TranslationResult × List TranslationResult × Option QualityScore × List String :=
  match T with
  | [(n, f)] =>
    let r := f text
    (r, [r], none, [n])
  | _ =>
    if ¬ enableEnsemble ∧ ¬ forceMulti then
      match seqTryLoop T text preferredOrder with
      | (some r, log) => (r, [r], none, log)
      | (none, log) =>
        let e := run_ensemble T text
        (e.1, e.2.1, e.2.2.1, log ++ e.2.2.2)
    else run_ensemble T text

/-! ## `translator/deepl_translator.py` — language mapping before the
network call -/

/-- `DEEPL_LANG_MAP`. -/
def DEEPL_LANG_MAP : List (String × String) :=
  [("ar", "AR"), ("en", "EN-US"), ("en-gb", "EN-GB"), ("en-us", "EN-US"),
   ("fr", "FR"), ("de", "DE"), ("es", "ES"), ("it", "IT"), ("pt", "PT-BR")]

/-- What `DeepLTranslator.translate` does before any transport is touched:
either fail with a client error, or proceed to issue a network request with
the mapped language codes.  The code has no failure branch: it always
proceeds to `_translate_official` / `_translate_http`. -/
inductive DeeplPre
  | clientError (msg : String)
  | request (sourceLang targetLang : String)
deriving DecidableEq, Repr

/-- The pre-network portion of `DeepLTranslator.translate`:
`deepl_source = DEEPL_LANG_MAP.get(source_lang, source_lang.upper())`,
`deepl_target = DEEPL_LANG_MAP.get(target_lang, "EN-US")`, then dispatch to
a transport. -/
def deepl_pre_network (sourceLang targetLang : String) : DeeplPre :=
  .request (dlookupD DEEPL_LANG_MAP sourceLang sourceLang.toUpper)
    (dlookupD DEEPL_LANG_MAP targetLang "EN-US")

/-! ## `utils.chunk_text` -/

/-- The end position (within the window) of the last match of the pattern
`[.!?،؟\n]\s*` in the window, scanned as `re.finditer` does: left to right,
non-overlapping, each match one boundary character plus the following
whitespace run. -/
def lastMatchEnd : Str → Option ℕ
  | [] => none
  | c :: rest =>
    if srcBoundary c then
      match lastMatchEnd (rest.dropWhile isWs) with
      | some m => some (1 + (rest.takeWhile isWs).length + m)
      | none => some (1 + (rest.takeWhile isWs).length)
    else
      match lastMatchEnd rest with
      | some m => some (1 + m)
      | none => none
termination_by s => s.length
decreasing_by
  · simp only [List.length_cons, Nat.lt_succ_iff]
    exact List.Sublist.length_le (List.dropWhile_sublist _)
  · simp only [List.length_cons, Nat.lt_succ_iff]
    exact Nat.le_refl _

/-- Python `str.rfind(' ')`: the index of the last space character, if any. -/
def rfindSpace : Str → Option ℕ
  | [] => none
  | c :: rest =>
    match rfindSpace rest with
    | some m => some (m + 1)
    | none => if c = ' ' then some 0 else none

/-- The split position one iteration of the `chunk_text` loop chooses: the
end of the last sentence-boundary match in the current window if any, else
the last space of the window when its index is positive, else a hard break
at `start + max_chars`. -/
def splitPosition (text : Str) (maxChars start : ℕ) : ℕ :=
  match lastMatchEnd ((text.drop start).take maxChars) with
  | some m => start + m
  | none =>
    match rfindSpace ((text.drop start).take maxChars) with
    | some idx => if 0 < idx then start + idx else start + maxChars
    | none => start + maxChars

/-- The `while start < len(text)` loop of `chunk_text`.  `fuel` bounds the
number of iterations; since each iteration advances `start` by at least one
character (for `max_chars ≥ 1`), `text.length` iterations always suffice. -/
def chunkLoop (text : Str) (maxChars : ℕ) : ℕ → ℕ → List Str
  | _, 0 => []
  | start, fuel + 1 =>
    if start < text.length then
      if text.length ≤ start + maxChars then [stripL (text.drop start)]
      else
        stripL ((text.drop start).take (splitPosition text maxChars start - start)) ::
          chunkLoop text maxChars (splitPosition text maxChars start) fuel
    else []

/-- `utils.chunk_text`. -/
def chunk_text (text : Str) (maxChars : ℕ) : List Str :=
  if text.length ≤ maxChars then [text]
  else (chunkLoop text maxChars 0 text.length).filter (fun c => ¬ c = [])

/-- `" ".join(chunks)`, the reassembly used downstream of the chunker. -/
def joinChunks : List Str → Str
  | [] => []
  | [c] => c
  | c :: rest => c ++ ' ' :: joinChunks rest

/-! ## Concrete backends used in witnesses and counterexamples -/

/-- A backend that answers every request successfully. -/
def okBackend (name : String) (answer : Str) : Backend :=
  fun t => ⟨name, t, answer, 9/10, none⟩

/-- A backend that fails every request with the given error string. -/
def failBackend (name msg : String) : Backend :=
  fun t => ⟨name, t, [], 0, some msg⟩

/-!
# Theorems
-/

/-- **C1** (code_bug evidence).  The spec requires `translate` to return an
`InputError` on empty or whitespace-only input with no backend invoked, and
the repository's own test `test_empty_text_returns_error_result` asserts
that `translate_with_timing` rejects empty text before calling `translate`;
but neither `TranslationEnsemble.translate` nor
`BaseTranslator.translate_with_timing` contains any empty-input check.  This
theorem evaluates the embedded ensemble at the failing inputs `""`, `" "`
and `"\t\n"`: in each case the registered backend *is* invoked (the call log
is non-empty) and the backend's result for the empty text is returned
instead of a terminal input error. -/
theorem ensemble_invokes_backend_on_empty_input :
    (ensemble_translate [("claude", okBackend "claude" "out".data)] true false
      []).2.2.2 = ["claude"] ∧
    (ensemble_translate [("claude", okBackend "claude" "out".data)] true false
      [' ']).2.2.2 = ["claude"] ∧
    (ensemble_translate [("claude", okBackend "claude" "out".data)] true false
      ['\t', '\n']).2.2.2 = ["claude"] ∧
    (ensemble_translate [("claude", okBackend "claude" "out".data)] true false
      []).1 = okBackend "claude" "out".data [] := by
  refine ⟨rfl, rfl, rfl, rfl⟩

/-- **C2** (code_bug evidence).  The spec requires the DeepL adapter to
reject a source language outside its supported set — notably Arabic — with
a terminal client error before any network request, and the repository's
test `test_supported_source_langs_set` asserts a class attribute
`DeepLTranslator.SUPPORTED_SOURCE_LANGS` excluding `"AR"`; but the code has
no such attribute and no preflight at all: `DeepLTranslator.translate` maps
`"ar"` through `DEEPL_LANG_MAP` to `"AR"` and proceeds straight to a
transport.  This theorem evaluates the embedded pre-network step at
`source_lang = "ar"`: it issues a network request rather than a client
error. -/
theorem deepl_no_arabic_preflight :
    deepl_pre_network "ar" "en" = .request "AR" "EN-US" := by
  rfl

/-- **C3** (counterexample).  With two registered backends that both fail,
`_run_ensemble` does not surface an aggregated `BackendTransportError`: it
returns normally with the first collected failed result as "best", all
failed results, and no quality score.  (The embedded function is total
because this code path raises nothing.) -/
theorem all_failed_returns_first_failure :
    ensemble_translate
        [("claude", failBackend "claude" "HTTP 500"),
         ("deepl", failBackend "deepl" "timeout")] true false "ab".data =
      (⟨"claude", "ab".data, [], 0, some "HTTP 500"⟩,
       [⟨"claude", "ab".data, [], 0, some "HTTP 500"⟩,
        ⟨"deepl", "ab".data, [], 0, some "timeout"⟩],
       none, ["claude", "deepl"]) := by
  rfl

/-- **C3** (amended).  Whenever every registered backend's result for a
chunk carries an error (zero successful candidates), the orchestrator does
not raise: `_run_ensemble` returns the first collected failed result as the
best result, together with all failed results and no quality score. -/
theorem run_ensemble_all_failed (T : List (String × Backend)) (text : Str)
    (h : ∀ p ∈ T, (p.2 text).is_successful = false) :
    run_ensemble T text =
      ((T.map (fun p => p.2 text)).headD defaultResult,
       T.map (fun p => p.2 text), none, T.map Prod.fst) := by
  have hfilter :
      (T.map (fun p => p.2 text)).filter (fun r => r.is_successful) = [] := by
    rw [List.filter_eq_nil_iff]
    intro r hr
    rcases List.mem_map.mp hr with ⟨p, hp, rfl⟩
    simp [h p hp]
  unfold run_ensemble
  simp only [hfilter]

/-- Witness for `run_ensemble_all_failed` at a concrete registry. -/
theorem run_ensemble_all_failed_witness :
    run_ensemble
        [("claude", failBackend "claude" "HTTP 500"),
         ("google", failBackend "google" "timeout")] "xy".data =
      (⟨"claude", "xy".data, [], 0, some "HTTP 500"⟩,
       [⟨"claude", "xy".data, [], 0, some "HTTP 500"⟩,
        ⟨"google", "xy".data, [], 0, some "timeout"⟩],
       none, ["claude", "google"]) := by
  have := run_ensemble_all_failed
    [("claude", failBackend "claude" "HTTP 500"),
     ("google", failBackend "google" "timeout")] "xy".data
    (by intro p hp; fin_cases hp <;> rfl)
  simpa using this

/-- **C8** (confirmed).  If the first invocation of the wrapped operation
raises an error classified non-retryable — one of the provider-SDK client
error classes (bad request, authentication, permission denied, not found,
unprocessable entity) or an error whose `status_code` (on itself, or on its
nested response when its own is falsy) lies in `[400, 500)` — then
`retry_with_backoff` invokes the operation exactly once, sleeps never, and
propagates that error immediately. -/
theorem retry_nonretryable_single_attempt {α : Type}
    (op : ℕ → Except PyErr α) (maxRetries : ℕ) (baseDelay maxDelay : ℚ)
    (e : PyErr) (hop : op 0 = .error e)
    (hcls : e.kind ≠ .generic ∨
      ∃ n, effectiveStatus e = some n ∧ 400 ≤ n ∧ n < 500) :
    retry_with_backoff op maxRetries baseDelay maxDelay = (.error e, 1, []) := by
  have hret : is_retryable_error e = false := by
    unfold is_retryable_error
    rcases hcls with hk | ⟨n, hn, h4, h5⟩
    · cases hkind : e.kind <;> simp_all
    · cases hkind : e.kind <;> simp_all
  unfold retry_with_backoff
  unfold retryAux
  rw [hop]
  simp [hret]

/-- Witness for `retry_nonretryable_single_attempt`: a 403-style error on
the very first call is propagated after exactly one invocation. -/
theorem retry_nonretryable_single_attempt_witness :
    retry_with_backoff
        (fun _ => (.error ⟨.generic, some 403, none⟩ : Except PyErr Unit))
        3 (3/2) 30 =
      (.error ⟨.generic, some 403, none⟩, 1, []) :=
  retry_nonretryable_single_attempt _ 3 (3/2) 30 _ rfl
    (Or.inr ⟨403, by decide⟩)

/-! ## Helper lemmas for winner selection (C5) -/

/-- Invariant of the `max(dict, key=dict.get)` loop: either the running
best survives (everything remaining is `≤` it), or the result is the first
later entry strictly above the running best and weakly above everything. -/
theorem dictArgmaxGo_spec (l : List (String × ℚ)) : ∀ bk bv,
    (dictArgmaxGo l bk bv = bk ∧ ∀ p ∈ l, p.2 ≤ bv) ∨
    (∃ pre x post, l = pre ++ x :: post ∧ dictArgmaxGo l bk bv = x.1 ∧
      bv < x.2 ∧ (∀ p ∈ pre, p.2 < x.2) ∧ ∀ p ∈ l, p.2 ≤ x.2) := by
  induction l with
  | nil =>
    intro bk bv
    left
    exact ⟨rfl, by simp⟩
  | cons hd tl ih =>
    intro bk bv
    obtain ⟨k, v⟩ := hd
    by_cases hlt : bv < v
    · rcases ih k v with ⟨heq, hle⟩ | ⟨pre, x, post, hsplit, heq, hvlt, hpre, hle⟩
      · right
        refine ⟨[], (k, v), tl, by simp, ?_, hlt, by simp, ?_⟩
        · simpa [dictArgmaxGo, hlt] using heq
        · intro p hp
          rcases List.mem_cons.mp hp with rfl | hp
          · exact le_refl _
          · exact hle p hp
      · right
        refine ⟨(k, v) :: pre, x, post, by simp [hsplit], ?_,
          lt_trans hlt hvlt, ?_, ?_⟩
        · simpa [dictArgmaxGo, hlt] using heq
        · intro p hp
          rcases List.mem_cons.mp hp with rfl | hp
          · exact hvlt
          · exact hpre p hp
        · intro p hp
          rcases List.mem_cons.mp hp with rfl | hp
          · exact le_of_lt hvlt
          · exact hle p (hsplit ▸ hp)
    · rcases ih bk bv with ⟨heq, hle⟩ | ⟨pre, x, post, hsplit, heq, hvlt, hpre, hle⟩
      · left
        refine ⟨by simpa [dictArgmaxGo, hlt] using heq, ?_⟩
        intro p hp
        rcases List.mem_cons.mp hp with rfl | hp
        · exact le_of_not_lt hlt
        · exact hle p hp
      · right
        refine ⟨(k, v) :: pre, x, post, by simp [hsplit], ?_, hvlt, ?_, ?_⟩
        · simpa [dictArgmaxGo, hlt] using heq
        · intro p hp
          rcases List.mem_cons.mp hp with rfl | hp
          · exact lt_of_le_of_lt (le_of_not_lt hlt) hvlt
          · exact hpre p hp
        · intro p hp
          rcases List.mem_cons.mp hp with rfl | hp
          · exact le_of_lt (lt_of_le_of_lt (le_of_not_lt hlt) hvlt)
          · exact hle p (hsplit ▸ hp)

/-- `dictArgmax` of a non-empty dict is the key of the first entry
attaining the maximum value. -/
theorem dictArgmax_first_max (m : List (String × ℚ)) (hm : m ≠ []) :
    ∃ pre x post, m = pre ++ x :: post ∧ dictArgmax m = x.1 ∧
      (∀ p ∈ pre, p.2 < x.2) ∧ ∀ p ∈ m, p.2 ≤ x.2 := by
  match m with
  | [] => exact absurd rfl hm
  | (k, v) :: rest =>
    rcases dictArgmaxGo_spec rest k v with ⟨heq, hle⟩ |
        ⟨pre, x, post, hsplit, heq, hvlt, hpre, hle⟩
    · refine ⟨[], (k, v), rest, by simp, heq, by simp, ?_⟩
      intro p hp
      rcases List.mem_cons.mp hp with rfl | hp
      · exact le_refl _
      · exact hle p hp
    · refine ⟨(k, v) :: pre, x, post, by simp [hsplit], heq, ?_, ?_⟩
      · intro p hp
        rcases List.mem_cons.mp hp with rfl | hp
        · exact hvlt
        · exact hpre p hp
      · intro p hp
        rcases List.mem_cons.mp hp with rfl | hp
        · exact le_of_lt hvlt
        · exact hle p (hsplit ▸ hp)

/-- `dinsert` never returns the empty dict. -/
theorem dinsert_ne_nil (m : List (String × α)) (k : String) (v : α) :
    dinsert m k v ≠ [] := by
  unfold dinsert
  split
  · intro hc
    rcases m with _ | ⟨p, rest⟩
    · simp_all
    · simp at hc
  · simp

/-- The score dict built by the phase-3 fold stays non-empty. -/
theorem foldl_combineStep_fst_ne_nil (hs : List (String × List (String × ℚ)))
    (ag : List (String × ℚ)) (l : List TranslationResult) :
    ∀ acc, acc.1 ≠ [] → (l.foldl (combineStep hs ag) acc).1 ≠ [] := by
  induction l with
  | nil => intro acc h; exact h
  | cons r rest ih =>
    intro acc _
    exact ih (combineStep hs ag acc r) (dinsert_ne_nil _ _ _)

/-- The two tied candidates of the C5 counterexample: identical source and
translated texts and confidences, different backend names. -/
def candA : TranslationResult := ⟨"claude", "ab".data, "xy".data, 1/2, none⟩

def candB : TranslationResult := ⟨"deepl", "ab".data, "xy".data, 1/2, none⟩

/-- **C5** (counterexample).  Two candidates with identical content (same
translated text and confidence, so every dimension and both totals are
equal — both `349/400`) are ranked differently depending on the order in
which they are supplied: the winner is whichever was supplied first, not
the backend earliest in the fixed preference order.  In particular with
`candB` first the winner is `"deepl"` although `"claude"` precedes it in
the preference order, refuting both order-independence and the claimed
fixed-order tie-break. -/
theorem evaluator_tie_depends_on_supply_order :
    List.Perm [candA, candB] [candB, candA] ∧
    (evaluate_translations "ab".data [candA, candB]).best_method = "claude" ∧
    (evaluate_translations "ab".data [candB, candA]).best_method = "deepl" ∧
    dlookup (evaluate_translations "ab".data [candA, candB]).scores "claude" =
      dlookup (evaluate_translations "ab".data [candA, candB]).scores "deepl" := by
  exact ⟨List.Perm.swap _ _ _, by with_unfolding_all decide,
    by with_unfolding_all decide, by with_unfolding_all decide⟩

/-- **C5** (amended).  With at least two candidates, the winner
`best_method` is `max(combined_scores, key=...)` over the score dict: it is
the key of the first entry attaining the maximum total, where the dict's
order is the order in which the candidates' methods first appear in the
supplied list.  Hence the winner attains the maximum, every method whose
first candidate was supplied earlier scores strictly less, and on ties the
earlier-supplied candidate wins — the selection is order-dependent on ties
and no fixed preference order is consulted. -/
theorem winner_is_first_max_in_supply_order (source : Str)
    (ts : List TranslationResult) (h2 : 2 ≤ ts.length) :
    (evaluate_translations source ts).best_method =
      dictArgmax (evaluate_translations source ts).scores ∧
    ∃ pre x post, (evaluate_translations source ts).scores = pre ++ x :: post ∧
      (evaluate_translations source ts).best_method = x.1 ∧
      (∀ p ∈ pre, p.2 < x.2) ∧
      ∀ p ∈ (evaluate_translations source ts).scores, p.2 ≤ x.2 := by
  rcases ts with _ | ⟨a, _ | ⟨b, rest⟩⟩
  · simp at h2
  · simp at h2
  · have hbm : (evaluate_translations source (a :: b :: rest)).best_method =
        dictArgmax (evaluate_translations source (a :: b :: rest)).scores := rfl
    refine ⟨hbm, ?_⟩
    have hne : (evaluate_translations source (a :: b :: rest)).scores ≠ [] := by
      show ((a :: b :: rest).foldl
        (combineStep (heuristicScores source (a :: b :: rest))
          (crossAgreementScores (a :: b :: rest))) ([], [])).1 ≠ []
      rw [List.foldl_cons]
      refine foldl_combineStep_fst_ne_nil _ _ _ _ ?_
      simp only [combineStep]
      exact dinsert_ne_nil _ _ _
    rcases dictArgmax_first_max _ hne with ⟨pre, x, post, hsplit, heq, hpre, hle⟩
    exact ⟨pre, x, post, hsplit, hbm.trans heq, hpre, hle⟩

/-- Witness for `winner_is_first_max_in_supply_order` at a concrete pair of
candidates. -/
theorem winner_is_first_max_witness :
    2 ≤ [candA, candB].length ∧
    (evaluate_translations "ab".data [candA, candB]).best_method =
      dictArgmax (evaluate_translations "ab".data [candA, candB]).scores :=
  ⟨by decide, (winner_is_first_max_in_supply_order "ab".data [candA, candB]
    (by decide)).1⟩

/-! ## Helper lemmas for cross-agreement (C9) -/

/-- The Jaccard similarity of a text with itself is `1`. -/
theorem sim_self (t : Str) : calculate_text_similarity t t = 1 := by
  unfold calculate_text_similarity
  by_cases h : wordSet t = ∅
  · simp [h]
  · have hpos : (0 : ℚ) < ((wordSet t).card : ℚ) := by
      have := Finset.card_pos.mpr (Finset.nonempty_iff_ne_empty.mpr h)
      exact_mod_cast this
    simp only [h, and_self, or_self, if_false, Finset.inter_self, Finset.union_self]
    exact div_self (ne_of_gt hpos)

/-- Jaccard similarity is non-negative. -/
theorem sim_nonneg (t1 t2 : Str) : 0 ≤ calculate_text_similarity t1 t2 := by
  unfold calculate_text_similarity
  split
  · norm_num
  split
  · norm_num
  positivity

/-- Jaccard similarity is at most `1`. -/
theorem sim_le_one (t1 t2 : Str) : calculate_text_similarity t1 t2 ≤ 1 := by
  unfold calculate_text_similarity
  split
  · norm_num
  split
  · norm_num
  rename_i hboth hnone
  have h1 : wordSet t1 ≠ ∅ := fun hc => hnone (Or.inl hc)
  have hpos : (0 : ℚ) < ((wordSet t1 ∪ wordSet t2).card : ℚ) := by
    have : (wordSet t1 ∪ wordSet t2).Nonempty :=
      (Finset.nonempty_iff_ne_empty.mpr h1).mono Finset.subset_union_left
    exact_mod_cast Finset.card_pos.mpr this
  rw [div_le_one hpos]
  exact_mod_cast Finset.card_le_card
    (Finset.inter_subset_left.trans Finset.subset_union_left)

/-- The mean of a `[0,1]`-valued similarity list (with the `0.5` no-peer
default) cannot decrease when a similarity of `1` is appended. -/
theorem meanOrHalf_append_one_mono (s : List ℚ)
    (hmem : ∀ x ∈ s, 0 ≤ x ∧ x ≤ 1) :
    meanOrHalf s ≤ meanOrHalf (s ++ [1]) := by
  unfold meanOrHalf
  rcases s with _ | ⟨a, rest⟩
  · norm_num
  have hne : (a :: rest : List ℚ) ≠ [] := by simp
  have hne2 : ((a :: rest : List ℚ) ++ [1]) ≠ [] := by simp
  simp only [hne, hne2, if_false]
  set l : List ℚ := a :: rest with hl
  have hlen : (0 : ℚ) < (l.length : ℚ) := by
    have : 0 < l.length := by simp [hl]
    exact_mod_cast this
  have hsumle : l.sum ≤ (l.length : ℚ) := by
    have := List.sum_le_card_nsmul l 1 (fun x hx => (hmem x hx).2)
    simpa using this
  have hsum : (l ++ [1]).sum = l.sum + 1 := by simp
  have hlen1 : ((l ++ [1]).length : ℚ) = (l.length : ℚ) + 1 := by simp
  rw [hsum, hlen1, div_le_div_iff hlen (by linarith)]
  nlinarith [hsumle]

/-- Appending a successful candidate with the same text as `ri` extends the
similarity list of index `i < ts.length` by exactly one entry equal to `1`. -/
theorem simsFor_append (ts : List TranslationResult) (i : ℕ)
    (d ri : TranslationResult) (hi : i < ts.length)
    (hd : d.is_successful = true)
    (htext : d.translated_text = ri.translated_text) :
    simsFor (ts ++ [d]) i ri = simsFor ts i ri ++ [1] := by
  unfold simsFor
  have henum : (ts ++ [d]).enum = ts.enum ++ [(ts.length, d)] := by
    simp [List.enum_append, List.enumFrom]
  rw [henum, List.filter_append, List.map_append]
  congr 1
  have : List.filter (fun p => decide (p.1 ≠ i ∧ p.2.is_successful = true))
      [(ts.length, d)] = [(ts.length, d)] := by
    simp [Nat.ne_of_gt hi, hd]
  rw [this]
  simp only [List.map_cons, List.map_nil]
  rw [htext, sim_self]

/-- **C9** (confirmed).  Appending a new successful candidate whose
translated text is identical to that of the successful candidate at index
`i` cannot decrease that candidate's cross-agreement score (the mean
word-set Jaccard similarity against its successful peers, `0.5` when it has
none). -/
theorem cross_agreement_monotone (ts : List TranslationResult)
    (i : ℕ) (d : TranslationResult) (hi : i < ts.length)
    (hsucc : (ts.get ⟨i, hi⟩).is_successful = true)
    (hd : d.is_successful = true)
    (htext : d.translated_text = (ts.get ⟨i, hi⟩).translated_text) :
    crossAgreementAt ts i ≤ crossAgreementAt (ts ++ [d]) i := by
  have hget : ts.get? i = some (ts.get ⟨i, hi⟩) := List.get?_eq_get hi
  have hget' : (ts ++ [d]).get? i = some (ts.get ⟨i, hi⟩) :=
    (List.get?_append hi).trans hget
  have hsucc' : ts[i].is_successful = true := by
    simpa [List.get_eq_getElem] using hsucc
  have h1 : crossAgreementAt ts i = meanOrHalf (simsFor ts i (ts.get ⟨i, hi⟩)) := by
    unfold crossAgreementAt
    rw [hget]
    simp [List.get_eq_getElem, hsucc']
  have h2 : crossAgreementAt (ts ++ [d]) i =
      meanOrHalf (simsFor (ts ++ [d]) i (ts.get ⟨i, hi⟩)) := by
    unfold crossAgreementAt
    rw [hget']
    simp [List.get_eq_getElem, hsucc']
  rw [h1, h2, simsFor_append ts i d _ hi hd htext]
  refine meanOrHalf_append_one_mono _ ?_
  intro x hx
  rcases List.mem_map.mp hx with ⟨p, _, rfl⟩
  exact ⟨sim_nonneg _ _, sim_le_one _ _⟩

/-- Witness for `cross_agreement_monotone`: a concrete two-candidate list
extended by a copy of the first candidate's text. -/
theorem cross_agreement_monotone_witness :
    crossAgreementAt [candA, candB] 0 ≤
      crossAgreementAt ([candA, candB] ++
        [⟨"openai", "ab".data, "xy".data, 3/4, none⟩]) 0 :=
  cross_agreement_monotone [candA, candB] 0
    ⟨"openai", "ab".data, "xy".data, 3/4, none⟩ (by decide)
    (by with_unfolding_all decide) (by with_unfolding_all decide) rfl

/-! ## Helper lemmas for dimension bounds (C4) -/

/-- `arabic_char_ratio` lies in `[0, 1]`. -/
theorem arabic_char_ratio_bounds (t : Str) :
    0 ≤ arabic_char_ratio t ∧ arabic_char_ratio t ≤ 1 := by
  unfold arabic_char_ratio
  split
  · rename_i hlen
    constructor
    · positivity
    · rw [div_le_one (by exact_mod_cast hlen)]
      exact_mod_cast List.length_filter_le _ _
  · norm_num

/-- `meanOrHalf` of a `[0,1]`-valued list lies in `[0, 1]`. -/
theorem meanOrHalf_bounds (s : List ℚ) (h : ∀ x ∈ s, 0 ≤ x ∧ x ≤ 1) :
    0 ≤ meanOrHalf s ∧ meanOrHalf s ≤ 1 := by
  unfold meanOrHalf
  split
  · norm_num
  rename_i hne
  have hlen : (0 : ℚ) < (s.length : ℚ) := by
    have : 0 < s.length := List.length_pos.mpr hne
    exact_mod_cast this
  constructor
  · apply div_nonneg _ (le_of_lt hlen)
    exact List.sum_nonneg (fun x hx => (h x hx).1)
  · rw [div_le_one hlen]
    have := List.sum_le_card_nsmul s 1 (fun x hx => (h x hx).2)
    simpa using this

/-- The cross-agreement dimension lies in `[0, 1]`. -/
theorem crossAgreementAt_bounds (ts : List TranslationResult) (i : ℕ) :
    0 ≤ crossAgreementAt ts i ∧ crossAgreementAt ts i ≤ 1 := by
  unfold crossAgreementAt
  cases hget : ts.get? i with
  | none =>
    dsimp only
    norm_num
  | some ri =>
    dsimp only
    split
    · norm_num
    refine meanOrHalf_bounds _ ?_
    intro x hx
    rcases List.mem_map.mp hx with ⟨p, _, rfl⟩
    exact ⟨sim_nonneg _ _, sim_le_one _ _⟩

/-- `_assess_fluency` lies in `[0, 1]`. -/
theorem assess_fluency_bounds (t : Str) :
    0 ≤ assess_fluency t ∧ assess_fluency t ≤ 1 := by
  unfold assess_fluency
  dsimp only
  constructor
  · split
    · norm_num
    apply le_min (by norm_num)
    split_ifs <;> positivity
  · split
    · norm_num
    exact min_le_left _ _

/-- `_assess_consistency` lies in `[0, 1]`. -/
theorem assess_consistency_bounds (t : Str) :
    0 ≤ assess_consistency t ∧ assess_consistency t ≤ 1 := by
  unfold assess_consistency
  dsimp only
  constructor
  · split
    · norm_num
    apply le_min (by norm_num)
    split_ifs <;> positivity
  · split
    · norm_num
    exact min_le_left _ _

/-- The weighted total over the full five-dimension dict is the fixed convex
combination `0.30·accuracy + 0.25·fluency + 0.25·completeness +
0.10·consistency + 0.10·cross_agreement` (the weights sum to `1`). -/
theorem combineDims_convex (a f c k g : ℚ) :
    combineDims [("accuracy", a), ("fluency", f), ("completeness", c),
        ("consistency", k), ("cross_agreement", g)] =
      (3/10) * a + (1/4) * f + (1/4) * c + (1/10) * k + (1/10) * g := by
  have hacc : dlookup [("accuracy", a), ("fluency", f), ("completeness", c),
      ("consistency", k), ("cross_agreement", g)] "accuracy" = some a := by
    with_unfolding_all rfl
  have hflu : dlookup [("accuracy", a), ("fluency", f), ("completeness", c),
      ("consistency", k), ("cross_agreement", g)] "fluency" = some f := by
    with_unfolding_all rfl
  have hcmp : dlookup [("accuracy", a), ("fluency", f), ("completeness", c),
      ("consistency", k), ("cross_agreement", g)] "completeness" = some c := by
    with_unfolding_all rfl
  have hcon : dlookup [("accuracy", a), ("fluency", f), ("completeness", c),
      ("consistency", k), ("cross_agreement", g)] "consistency" = some k := by
    with_unfolding_all rfl
  have hcag : dlookup [("accuracy", a), ("fluency", f), ("completeness", c),
      ("consistency", k), ("cross_agreement", g)] "cross_agreement" = some g := by
    with_unfolding_all rfl
  simp only [combineDims, DIMENSION_WEIGHTS, List.foldl, hacc, hflu, hcmp, hcon, hcag]
  norm_num
  ring

/-- The two candidates of the C4 counterexample. -/
def goodCand : TranslationResult := ⟨"good", "s".data, "ok".data, 1/2, none⟩

def overSplitCand : TranslationResult :=
  ⟨"bad", "s".data, "a.a.a.a.a.a.a.a.a.a.a.a.a.a.a.a.a.a.a.".data, 0, none⟩

set_option maxRecDepth 100000 in
/-- **C4** (counterexample).  The completeness dimension is not bounded
below by `0`: for the one-character source `"s"` and the successful
candidate output `"a.a.…a."` (nineteen sentences against one, so the
sentence-count penalty `1 − |1 − 20|·0.4 = −6.6` is unbounded), the
evaluator's reported completeness score is `−16/5`, and the weighted total
for that backend is also negative — refuting "each per-dimension score lies
in `[0,1]`, hence the totals too". -/
theorem completeness_below_zero :
    dlookup (dlookupD
        (evaluate_translations "s".data [goodCand, overSplitCand]).dimension_scores
        "bad" []) "completeness" = some (-(16/5)) ∧
    (-(16/5) : ℚ) < 0 ∧
    dlookupD (evaluate_translations "s".data [goodCand, overSplitCand]).scores
        "bad" 0 < 0 := by
  refine ⟨by with_unfolding_all decide, by norm_num, by with_unfolding_all decide⟩

/-- **C4** (amended).  For every source and candidate with self-confidence
in `[0,1]`: the accuracy, fluency and consistency dimensions lie in `[0,1]`,
every dimension (completeness included) is bounded above by `1`, and the
cross-agreement dimension lies in `[0,1]`; every per-backend weighted total
over the five dimensions is the fixed convex combination
`0.30·accuracy + 0.25·fluency + 0.25·completeness + 0.10·consistency +
0.10·cross_agreement`.  (Completeness, however, is not bounded below — see
the counterexample — so totals can leave `[0,1]` downwards.) -/
theorem dimension_scores_bounds (source : Str) (r : TranslationResult)
    (hconf : 0 ≤ r.confidence ∧ r.confidence ≤ 1) :
    (∀ p ∈ heuristicDimsFor source r,
      p.2 ≤ 1 ∧ (p.1 ≠ "completeness" → 0 ≤ p.2)) ∧
    (∀ ts i, 0 ≤ crossAgreementAt ts i ∧ crossAgreementAt ts i ≤ 1) ∧
    (∀ a f c k g : ℚ,
      combineDims [("accuracy", a), ("fluency", f), ("completeness", c),
          ("consistency", k), ("cross_agreement", g)] =
        (3/10) * a + (1/4) * f + (1/4) * c + (1/10) * k + (1/10) * g) := by
  refine ⟨?_, fun ts i => crossAgreementAt_bounds ts i, combineDims_convex⟩
  intro p hp
  unfold heuristicDimsFor at hp
  rcases hconf with ⟨hc0, hc1⟩
  by_cases hstrip : stripL r.translated_text = []
  · rw [if_pos hstrip] at hp
    simp only [List.mem_cons, List.not_mem_nil, or_false] at hp
    rcases hp with rfl | rfl | rfl | rfl <;>
      exact ⟨by norm_num, fun _ => le_refl _⟩
  · rw [if_neg hstrip] at hp
    dsimp only at hp
    have har := arabic_char_ratio_bounds r.translated_text
    have hacc0 : (3/10 : ℚ) ≤ max (3/10) (1 - arabic_char_ratio r.translated_text * 5) :=
      le_max_left _ _
    have hacc1 : max (3/10) (1 - arabic_char_ratio r.translated_text * 5) ≤ 1 :=
      max_le (by norm_num) (by nlinarith [har.1])
    have hflu := assess_fluency_bounds r.translated_text
    have hcon := assess_consistency_bounds r.translated_text
    simp only [List.mem_cons, List.not_mem_nil, or_false] at hp
    rcases hp with rfl | rfl | rfl | rfl
    · dsimp only
      constructor
      · linarith
      · intro _
        linarith
    · dsimp only
      exact ⟨hflu.2, fun _ => hflu.1⟩
    · dsimp only
      set lr := (if 0 < source.length then
        ((r.translated_text.length : ℚ) / (source.length : ℚ)) else 0) with hlr
      set sr := (if 0 < ((splitRuns srcBoundary source).length : ℚ) then
        (((splitRuns transBoundary r.translated_text).length : ℚ) /
          ((splitRuns srcBoundary source).length : ℚ)) else 1) with hsr
      have h1 : (if 1/2 ≤ lr ∧ lr ≤ 2 then min 1 (1 - |1 - lr| * (3/10))
          else max (1/5) (1 - |1 - lr| * (5/10))) ≤ 1 := by
        split
        · exact min_le_left _ _
        · refine max_le (by norm_num) ?_
          have h0 := abs_nonneg (1 - lr)
          linarith
      have h2 : min 1 (1 - |1 - sr| * (4/10)) ≤ 1 := min_le_left _ _
      constructor
      · linarith
      · intro hne
        exact absurd rfl hne
    · dsimp only
      exact ⟨hcon.2, fun _ => hcon.1⟩

/-- Witness for `dimension_scores_bounds` at a concrete candidate. -/
theorem dimension_scores_bounds_witness :
    (0 ≤ goodCand.confidence ∧ goodCand.confidence ≤ 1) ∧
    ∀ p ∈ heuristicDimsFor "s".data goodCand,
      p.2 ≤ 1 ∧ (p.1 ≠ "completeness" → 0 ≤ p.2) :=
  ⟨⟨by norm_num [goodCand], by norm_num [goodCand]⟩,
    (dimension_scores_bounds "s".data goodCand
      ⟨by norm_num [goodCand], by norm_num [goodCand]⟩).1⟩

/-! ## Accuracy dimension (C6) -/

/-- The accuracy blend exactly as the spec words it:
`0.7·(1 − min(1, 5·arabic_char_ratio)) + 0.3·self_confidence`.  Stated for
comparison with the code's computation, which floors the heuristic at `0.3`
instead of `0`. -/
def specAccuracyFormula (arabicRatio conf : ℚ) : ℚ :=
  (7/10) * (1 - min 1 (5 * arabicRatio)) + (3/10) * conf

/-- The accuracy entry `_heuristic_evaluation` computes for a successful
candidate: `max(0.3, 1 − ratio·5)`, then blended `·0.7 + confidence·0.3`. -/
theorem dlookup_accuracy (source : Str) (r : TranslationResult)
    (h : ¬ stripL r.translated_text = []) :
    dlookup (heuristicDimsFor source r) "accuracy" =
      some (max (3/10) (1 - arabic_char_ratio r.translated_text * 5) * (7/10) +
        r.confidence * (3/10)) := by
  unfold heuristicDimsFor
  rw [if_neg h]
  with_unfolding_all rfl

/-- A candidate whose output is entirely Arabic script, and one with no
Arabic at all, both with self-confidence `0`. -/
def arabicEchoCand : TranslationResult := ⟨"m1", "s".data, "ع".data, 0, none⟩

def arabicFreeCand : TranslationResult := ⟨"m2", "s".data, "ok".data, 0, none⟩

/-- **C6** (counterexample).  For the all-Arabic output `"ع"` (ratio `1`)
with self-confidence `0`, the evaluator's accuracy is
`0.7·max(0.3, 1−5) + 0 = 21/100`, while the claimed formula
`0.7·(1 − min(1, 5·1)) + 0.3·0` gives `0`: the code floors the heuristic at
`0.3` instead of `0`, so the claimed equation fails. -/
theorem accuracy_floor_differs_from_spec :
    dlookup (heuristicDimsFor "s".data arabicEchoCand) "accuracy" =
      some (21/100) ∧
    specAccuracyFormula (arabic_char_ratio arabicEchoCand.translated_text)
      arabicEchoCand.confidence = 0 ∧
    (21/100 : ℚ) ≠ 0 := by
  refine ⟨by with_unfolding_all decide, by with_unfolding_all decide, by norm_num⟩

/-- **C6** (amended).  For every successful candidate, the accuracy
dimension equals `0.7·max(0.3, 1 − 5·arabic_char_ratio(output)) +
0.3·self_confidence` — the heuristic part is floored at `0.3`, not at `0`
as the spec's formula `1 − min(1, 5·ratio)` would have it; in particular,
for equal self-confidence, an output containing Arabic-script characters
still scores strictly lower on accuracy than an Arabic-free output. -/
theorem accuracy_formula_and_penalty (source : Str)
    (r1 r2 : TranslationResult)
    (h1 : ¬ stripL r1.translated_text = [])
    (h2 : ¬ stripL r2.translated_text = [])
    (hconf : r1.confidence = r2.confidence)
    (har1 : ∃ c ∈ r1.translated_text, isArabicChar c)
    (har2 : ∀ c ∈ r2.translated_text, ¬ isArabicChar c) :
    dlookup (heuristicDimsFor source r1) "accuracy" =
      some (max (3/10) (1 - arabic_char_ratio r1.translated_text * 5) * (7/10) +
        r1.confidence * (3/10)) ∧
    dlookup (heuristicDimsFor source r2) "accuracy" =
      some (max (3/10) (1 - arabic_char_ratio r2.translated_text * 5) * (7/10) +
        r2.confidence * (3/10)) ∧
    max (3/10) (1 - arabic_char_ratio r1.translated_text * 5) * (7/10) +
        r1.confidence * (3/10) <
      max (3/10) (1 - arabic_char_ratio r2.translated_text * 5) * (7/10) +
        r2.confidence * (3/10) := by
  refine ⟨dlookup_accuracy source r1 h1, dlookup_accuracy source r2 h2, ?_⟩
  have hlen1 : 0 < r1.translated_text.length := by
    rcases har1 with ⟨c, hc, -⟩
    exact List.length_pos.mpr (List.ne_nil_of_mem hc)
  have hfilter1 : 0 < (r1.translated_text.filter isArabicChar).length := by
    rcases har1 with ⟨c, hc, hac⟩
    exact List.length_pos.mpr
      (List.ne_nil_of_mem (List.mem_filter.mpr ⟨hc, hac⟩))
  have hr1pos : 0 < arabic_char_ratio r1.translated_text := by
    unfold arabic_char_ratio
    rw [if_pos hlen1]
    apply div_pos
    · exact_mod_cast hfilter1
    · exact_mod_cast hlen1
  have hr2zero : arabic_char_ratio r2.translated_text = 0 := by
    unfold arabic_char_ratio
    have : r2.translated_text.filter isArabicChar = [] := by
      rw [List.filter_eq_nil_iff]
      exact har2
    rw [this]
    split <;> norm_num
  have hlt : max (3/10) (1 - arabic_char_ratio r1.translated_text * 5) < 1 :=
    max_lt (by norm_num) (by nlinarith)
  have hmax2 : max (3/10) (1 - arabic_char_ratio r2.translated_text * 5) = 1 := by
    rw [hr2zero]
    norm_num
  rw [hmax2, hconf]
  nlinarith

/-- Witness for `accuracy_formula_and_penalty` at the two concrete
candidates. -/
theorem accuracy_formula_and_penalty_witness :
    dlookup (heuristicDimsFor "s".data arabicEchoCand) "accuracy" =
      some (max (3/10) (1 - arabic_char_ratio arabicEchoCand.translated_text * 5) *
        (7/10) + arabicEchoCand.confidence * (3/10)) ∧
    dlookup (heuristicDimsFor "s".data arabicFreeCand) "accuracy" =
      some (max (3/10) (1 - arabic_char_ratio arabicFreeCand.translated_text * 5) *
        (7/10) + arabicFreeCand.confidence * (3/10)) ∧
    max (3/10) (1 - arabic_char_ratio arabicEchoCand.translated_text * 5) * (7/10) +
        arabicEchoCand.confidence * (3/10) <
      max (3/10) (1 - arabic_char_ratio arabicFreeCand.translated_text * 5) * (7/10) +
        arabicFreeCand.confidence * (3/10) :=
  accuracy_formula_and_penalty "s".data arabicEchoCand arabicFreeCand
    (by with_unfolding_all decide) (by with_unfolding_all decide) rfl
    ⟨'ع', by with_unfolding_all decide⟩ (by with_unfolding_all decide)

/-! ## Chunker lemmas (C7) -/

/-- The non-whitespace characters of a text, in order. -/
def nonWs (s : Str) : Str := s.filter (fun c => !(isWs c))

theorem nonWs_append (a b : Str) : nonWs (a ++ b) = nonWs a ++ nonWs b :=
  List.filter_append ..

theorem nonWs_dropWhile_ws (s : Str) : nonWs (s.dropWhile isWs) = nonWs s := by
  induction s with
  | nil => rfl
  | cons c rest ih =>
    rw [List.dropWhile_cons]
    by_cases hc : isWs c
    · rw [if_pos hc, ih]
      simp [nonWs, List.filter_cons, hc]
    · rw [if_neg (by simpa using hc)]

theorem nonWs_reverse (s : Str) : nonWs s.reverse = (nonWs s).reverse := by
  simp [nonWs, List.filter_reverse]

/-- Stripping only removes whitespace: the non-whitespace characters are
unchanged. -/
theorem nonWs_stripL (s : Str) : nonWs (stripL s) = nonWs s := by
  unfold stripL
  rw [nonWs_reverse, nonWs_dropWhile_ws, nonWs_reverse, List.reverse_reverse,
    nonWs_dropWhile_ws]

/-- A regex match of `[.!?،؟\n]\s*` has positive length and ends inside the
window. -/
theorem lastMatchEnd_bounds (s : Str) :
    ∀ m, lastMatchEnd s = some m → 1 ≤ m ∧ m ≤ s.length := by
  induction s using lastMatchEnd.induct with
  | case1 =>
    intro m hm
    simp [lastMatchEnd] at hm
  | case2 c rest hb n hn ih =>
    intro m hm
    rw [lastMatchEnd, if_pos hb, hn] at hm
    simp only [Option.some.injEq] at hm
    have hrec := ih n hn
    have hsum : (rest.takeWhile isWs).length + (rest.dropWhile isWs).length =
        rest.length := by
      rw [← List.length_append, List.takeWhile_append_dropWhile]
    simp only [List.length_cons]
    omega
  | case3 c rest hb hn ih =>
    intro m hm
    rw [lastMatchEnd, if_pos hb, hn] at hm
    simp only [Option.some.injEq] at hm
    have hkle : (List.takeWhile isWs rest).length ≤ rest.length :=
      (List.takeWhile_sublist _).length_le
    simp only [List.length_cons]
    omega
  | case4 c rest hb n hn ih =>
    intro m hm
    rw [lastMatchEnd, if_neg hb, hn] at hm
    simp only [Option.some.injEq] at hm
    have hrec := ih n hn
    simp only [List.length_cons]
    omega
  | case5 c rest hb hn ih =>
    intro m hm
    rw [lastMatchEnd, if_neg hb, hn] at hm
    simp at hm

/-- `rfind(' ')` returns an index inside the window. -/
theorem rfindSpace_bounds (s : Str) :
    ∀ i, rfindSpace s = some i → i < s.length := by
  induction s with
  | nil =>
    intro i hi
    simp [rfindSpace] at hi
  | cons c rest ih =>
    intro i hi
    rw [rfindSpace] at hi
    cases hrec : rfindSpace rest with
    | some m =>
      rw [hrec] at hi
      simp only [Option.some.injEq] at hi
      have := ih m hrec
      simp only [List.length_cons]
      omega
    | none =>
      rw [hrec] at hi
      by_cases hc : c = ' '
      · rw [if_pos hc] at hi
        simp only [Option.some.injEq] at hi
        simp only [List.length_cons]
        omega
      · rw [if_neg hc] at hi
        exact absurd hi (by simp)

/-- Each loop iteration strictly advances the cursor (for `max_chars ≥ 1`). -/
theorem splitPosition_gt (text : Str) (maxChars start : ℕ)
    (hmax : 1 ≤ maxChars) : start < splitPosition text maxChars start := by
  unfold splitPosition
  cases hlm : lastMatchEnd ((text.drop start).take maxChars) with
  | some m =>
    dsimp only
    have := (lastMatchEnd_bounds _ m hlm).1
    omega
  | none =>
    dsimp only
    cases hrf : rfindSpace ((text.drop start).take maxChars) with
    | some idx =>
      dsimp only
      by_cases hidx : 0 < idx
      · rw [if_pos hidx]
        omega
      · rw [if_neg hidx]
        omega
    | none =>
      dsimp only
      omega

theorem join_cons (a : Str) (l : List Str) :
    List.join (a :: l) = a ++ List.join l := rfl

/-- Coverage of the chunk loop: the concatenated chunks contain exactly the
non-whitespace characters of the unprocessed suffix of the text. -/
theorem chunkLoop_nonWs (text : Str) (maxChars : ℕ) (hmax : 1 ≤ maxChars) :
    ∀ fuel start, text.length ≤ start + fuel →
      nonWs (chunkLoop text maxChars start fuel).join =
        nonWs (text.drop start) := by
  intro fuel
  induction fuel with
  | zero =>
    intro start hle
    rw [chunkLoop]
    simp [List.drop_eq_nil_of_le (by omega : text.length ≤ start)]
  | succ fuel ih =>
    intro start hle
    rw [chunkLoop]
    by_cases hlt : start < text.length
    · rw [if_pos hlt]
      by_cases hend : text.length ≤ start + maxChars
      · rw [if_pos hend]
        simp [nonWs_stripL]
      · rw [if_neg hend]
        have hgt := splitPosition_gt text maxChars start hmax
        set sp := splitPosition text maxChars start with hsp
        have hrec := ih sp (by omega)
        rw [join_cons, nonWs_append, nonWs_stripL, hrec]
        have hdd : text.drop sp = (text.drop start).drop (sp - start) := by
          rw [List.drop_drop]
          congr 1
          omega
        rw [hdd, ← nonWs_append, List.take_append_drop]
    · rw [if_neg hlt]
      simp [List.drop_eq_nil_of_le (by omega : text.length ≤ start)]

/-- Dropped empty chunks contribute nothing to the concatenation. -/
theorem join_filter_ne_nil (l : List Str) :
    (l.filter (fun c => ¬ c = [])).join = l.join := by
  induction l with
  | nil => rfl
  | cons x rest ih =>
    by_cases hx : x = []
    · rw [List.filter_cons, if_neg (by simp [hx]), ih, join_cons, hx,
        List.nil_append]
    · rw [List.filter_cons, if_pos (by simp [hx]), join_cons, join_cons, ih]

/-- Joining with single spaces only inserts whitespace. -/
theorem nonWs_joinChunks (l : List Str) : nonWs (joinChunks l) = nonWs l.join := by
  induction l with
  | nil => rfl
  | cons x rest ih =>
    cases rest with
    | nil => simp [joinChunks, join_cons]
    | cons y t =>
      show nonWs (x ++ ' ' :: joinChunks (y :: t)) = nonWs ((x :: y :: t).join)
      rw [join_cons, nonWs_append, nonWs_append]
      have hsp : nonWs (' ' :: joinChunks (y :: t)) = nonWs (joinChunks (y :: t)) := by
        simp [nonWs, List.filter_cons, isWs]
      rw [hsp, ih]

/-- The tokens (whitespace-separated words) of the space-joined chunks of
the C7 counterexample. -/
def exampleChunkTokens : List Str := tokens (joinChunks (chunk_text "aaaaa".data 3))

/-- **C7** (counterexample).  For `text = "aaaaa"` and `max_chars = 3` the
window contains no sentence boundary and no space, so the loop hard-breaks
mid-token: the chunks are `["aaa", "aa"]` and the multiset of
non-whitespace tokens of their (space-joined) concatenation is
`{"aaa", "aa"}`, not the input's `{"aaaaa"}`. -/
theorem chunker_splits_inside_token :
    chunk_text "aaaaa".data 3 = ["aaa".data, "aa".data] ∧
    ¬ List.Perm exampleChunkTokens (tokens "aaaaa".data) := by
  constructor
  · with_unfolding_all decide
  · with_unfolding_all decide

/-- **C7** (amended).  For every text and every `max_chars ≥ 1`, chunking
drops or alters no content at the character level: the sequence of
non-whitespace characters of the space-joined chunks equals that of the
input.  (The multiset of non-whitespace *tokens* is, however, not always
preserved, because a split position may fall inside a token — see the
counterexample.) -/
theorem chunker_preserves_nonws_chars (text : Str) (maxChars : ℕ)
    (hmax : 1 ≤ maxChars) :
    nonWs (joinChunks (chunk_text text maxChars)) = nonWs text := by
  unfold chunk_text
  split
  · rfl
  · rw [nonWs_joinChunks, join_filter_ne_nil,
      chunkLoop_nonWs text maxChars hmax text.length 0 (by omega)]
    rfl

/-- Witness for `chunker_preserves_nonws_chars` at the counterexample
input. -/
theorem chunker_preserves_nonws_chars_witness :
    nonWs (joinChunks (chunk_text "aaaaa".data 3)) = nonWs "aaaaa".data :=
  chunker_preserves_nonws_chars "aaaaa".data 3 (by norm_num)

/-! ## Sequential fallback path of `translate` (C10) -/

/-- The (name, result) pairs the sequential `for name in preferred_order`
loop would produce if run to completion: one entry per preferred name that
is registered, in preference order. -/
def seqAttempts (T : List (String × Backend)) (text : Str)
    (names : List String) : List (String × TranslationResult) :=
  names.filterMap (fun n => (dlookup T n).map (fun f => (n, f text)))

/-- Characterisation of the sequential loop: it stops at the first
successful attempt, returning that result and logging the names tried up to
and including it; if no attempt succeeds it returns nothing, having tried
every registered preferred backend. -/
theorem seqTryLoop_spec (T : List (String × Backend)) (text : Str) :
    ∀ names : List String,
      (∀ n r, (seqAttempts T text names).find?
            (fun p => p.2.is_successful) = some (n, r) →
          seqTryLoop T text names =
            (some r, ((seqAttempts T text names).takeWhile
              (fun p => ¬ p.2.is_successful)).map Prod.fst ++ [n])) ∧
      ((seqAttempts T text names).find? (fun p => p.2.is_successful) = none →
        seqTryLoop T text names =
          (none, (seqAttempts T text names).map Prod.fst)) := by
  intro names
  induction names with
  | nil =>
    constructor
    · intro n r hfind
      simp [seqAttempts] at hfind
    · intro _
      rfl
  | cons nm rest ih =>
    cases hlook : dlookup T nm with
    | none =>
      have hatt : seqAttempts T text (nm :: rest) = seqAttempts T text rest := by
        simp [seqAttempts, List.filterMap_cons, hlook]
      have hloop : seqTryLoop T text (nm :: rest) = seqTryLoop T text rest := by
        rw [seqTryLoop, hlook]
      constructor
      · intro n r hfind
        rw [hatt] at hfind
        rw [hloop, ih.1 n r hfind, hatt]
      · intro hfind
        rw [hatt] at hfind
        rw [hloop, ih.2 hfind, hatt]
    | some f =>
      have hatt : seqAttempts T text (nm :: rest) =
          (nm, f text) :: seqAttempts T text rest := by
        simp [seqAttempts, List.filterMap_cons, hlook]
      by_cases hsucc : (f text).is_successful = true
      · have hloop : seqTryLoop T text (nm :: rest) = (some (f text), [nm]) := by
          rw [seqTryLoop, hlook]
          simp [hsucc]
        constructor
        · intro n r hfind
          rw [hatt, List.find?_cons_of_pos _ (by simpa using hsucc)] at hfind
          simp only [Option.some.injEq, Prod.mk.injEq] at hfind
          rw [hloop, hatt, List.takeWhile_cons_of_neg (by simpa using hsucc)]
          simp [hfind.1, hfind.2]
        · intro hfind
          rw [hatt, List.find?_cons_of_pos _ (by simpa using hsucc)] at hfind
          simp at hfind
      · have hloop : seqTryLoop T text (nm :: rest) =
            ((seqTryLoop T text rest).1, nm :: (seqTryLoop T text rest).2) := by
          rw [seqTryLoop, hlook]
          simp [hsucc]
        constructor
        · intro n r hfind
          rw [hatt, List.find?_cons_of_neg _ (by simpa using hsucc)] at hfind
          rw [hloop, ih.1 n r hfind, hatt,
            List.takeWhile_cons_of_pos (by simpa using hsucc)]
          simp
        · intro hfind
          rw [hatt, List.find?_cons_of_neg _ (by simpa using hsucc)] at hfind
          rw [hloop, ih.2 hfind, hatt]
          simp

/-- The ensemble always invokes every registered backend: its call log is
the full registry. -/
theorem run_ensemble_log (T : List (String × Backend)) (text : Str) :
    (run_ensemble T text).2.2.2 = T.map Prod.fst := by
  unfold run_ensemble
  dsimp only
  split <;> rfl

/-- **C10** (confirmed).  With several registered backends and both
`enable_ensemble` and `force_multi_method` false, `translate` walks the
fixed preference order (`claude`, `deepl`, `openai`, `google`) over the
registered backends sequentially: if some attempt succeeds, the first
successful result is returned alone with no quality score (no evaluator
run), the call log being exactly the backends tried up to and including it;
if every attempt fails, no failure is reported — `translate` falls through
to `_run_ensemble`, which invokes every registered backend again (the log
appends the whole registry) and its outcome is returned. -/
theorem translate_sequential_fallback (T : List (String × Backend))
    (text : Str) (h2 : 2 ≤ T.length) :
    (∀ n r, (seqAttempts T text preferredOrder).find?
          (fun p => p.2.is_successful) = some (n, r) →
        ensemble_translate T false false text =
          (r, [r], none, ((seqAttempts T text preferredOrder).takeWhile
            (fun p => ¬ p.2.is_successful)).map Prod.fst ++ [n])) ∧
    ((seqAttempts T text preferredOrder).find?
          (fun p => p.2.is_successful) = none →
      ensemble_translate T false false text =
        ((run_ensemble T text).1, (run_ensemble T text).2.1,
         (run_ensemble T text).2.2.1,
         (seqAttempts T text preferredOrder).map Prod.fst ++ T.map Prod.fst)) := by
  rcases T with _ | ⟨a, T1⟩
  · simp at h2
  rcases T1 with _ | ⟨b, T2⟩
  · simp at h2
  have hred : ensemble_translate (a :: b :: T2) false false text =
      (match seqTryLoop (a :: b :: T2) text preferredOrder with
       | (some r, log) => (r, [r], none, log)
       | (none, log) =>
         ((run_ensemble (a :: b :: T2) text).1,
          (run_ensemble (a :: b :: T2) text).2.1,
          (run_ensemble (a :: b :: T2) text).2.2.1,
          log ++ (run_ensemble (a :: b :: T2) text).2.2.2)) := by
    rw [ensemble_translate, if_pos (by simp)]
    intro n f hcontra
    simp at hcontra
  have hspec := seqTryLoop_spec (a :: b :: T2) text preferredOrder
  constructor
  · intro n r hfind
    rw [hred, hspec.1 n r hfind]
  · intro hfind
    rw [hred, hspec.2 hfind, run_ensemble_log]

/-- The registry used in the C10 witness: the preferred backend fails, the
second succeeds. -/
def seqT : List (String × Backend) :=
  [("claude", failBackend "claude" "HTTP 500"),
   ("deepl", okBackend "deepl" "out".data)]

/-- Witness for `translate_sequential_fallback`: with `claude` failing and
`deepl` succeeding, the sequential path returns `deepl`'s result alone,
logging `["claude", "deepl"]` and running no evaluator. -/
theorem translate_sequential_fallback_witness :
    2 ≤ seqT.length ∧
    ensemble_translate seqT false false "ab".data =
      (⟨"deepl", "ab".data, "out".data, 9/10, none⟩,
       [⟨"deepl", "ab".data, "out".data, 9/10, none⟩],
       none, ["claude", "deepl"]) := by
  constructor
  · norm_num [seqT]
  · have h := (translate_sequential_fallback seqT "ab".data
      (by norm_num [seqT])).1 "deepl" ⟨"deepl", "ab".data, "out".data, 9/10, none⟩
      (by with_unfolding_all rfl)
    rw [h]
    with_unfolding_all rfl

end ArabicPdfTranslator
